import Mathlib

/-!
# emp3r0r controller (`core/internal/cc`): registry, control channel, file transfer, shell cleanup

A shallow embedding of `cc.go` and `rshell.go`.

* A Go `map[*agent.SystemInfo]*Control` is an association list whose keys are the
  addresses of the `agent.SystemInfo` objects; `range` visits the list front to back.
  Go leaves the iteration order of a map unspecified, so results that are stated for
  every list hold for every iteration order.
* A `*h2conn.Conn` is `Option Nat`: `none` is the nil pointer, `some c` the connection
  with identity `c`.
* Effects on the outside world are recorded in the state: the envelopes encoded onto
  connections (`wire`), the connections closed (`closed`), the envelopes handed to
  `processAgentData` (`processed`). Console output (`CliPrint...`) is left out.
* What the environment decides is an argument of the function that meets it: the parsed
  request body, the content of a local file, whether a write on a connection succeeds,
  whether `ctx.Done()` is ready.
* A call ends with the error it returns or with a run-time panic (`Outcome`).
* A Go string is a `String`, its bytes are its UTF-8 encoding (`bytesOf`);
  `strings.Index` and `strings.Split` search, measure and cut by bytes.
* `float32(size)` is the exact rational value of the rounded number.
* The constant `agent.OpSep` is not among the sources; it is an argument `OpSep`.
-/

namespace Emp3r0r

/-! ## Data model -/

/-- The fields of `agent.SystemInfo` that package `cc` reads (`ListTargets`,
`checkinHandler`). -/
structure SystemInfo where
  Tag : String
  OS : String
  Kernel : String
  Arch : String
  CPU : String
  Mem : String
  IP : String
  IPs : List String
  HasRoot : Bool
deriving DecidableEq, Repr

/-- A non-nil `*agent.SystemInfo`: the address of the object and the object it points
to. Two pointers are the same map key exactly when their addresses are equal. -/
structure SystemInfoPtr where
  addr : Nat
  val : SystemInfo
deriving DecidableEq, Repr

/-- The struct `Control`: controller interface of a target. -/
structure Control where
  Index : Int
  Conn : Option Nat
deriving DecidableEq, Repr

/-- One key/value pair of the map `Targets`. -/
structure Entry where
  t : SystemInfoPtr
  ctl : Control
deriving DecidableEq, Repr

/-- The struct `agent.MsgTunData`: the envelope of the control channel. -/
structure MsgTunData where
  Payload : String
  Tag : String
deriving DecidableEq, Repr

/-- The package state of `cc` together with the record of its effects. -/
structure State where
  /-- the map `Targets`, in iteration order -/
  Targets : List Entry
  /-- the next unused address for a newly allocated `agent.SystemInfo` -/
  heap : Nat
  /-- envelopes encoded onto a connection, oldest first -/
  wire : List (Nat × MsgTunData)
  /-- connections on which `Close` was called, oldest first -/
  closed : List Nat
  /-- envelopes handed to `processAgentData`, oldest first -/
  processed : List MsgTunData
deriving DecidableEq, Repr

/-- The state of a freshly started controller: `Targets = make(map...)`. -/
def State.init : State :=
  { Targets := [], heap := 0, wire := [], closed := [], processed := [] }

/-! ## Map primitives -/

/-- The map read `Targets[agent]`: the `*Control` stored under the key, nil if absent. -/
def mapGet (m : List Entry) (agent : SystemInfoPtr) : Option Control :=
  (m.find? (fun e => e.t.addr == agent.addr)).map (fun e => e.ctl)

/-- The map write `Targets[k] = v`: replaces the value of an existing key, adds the pair
otherwise. -/
def mapSet : List Entry → SystemInfoPtr → Control → List Entry
  | [], k, v => [⟨k, v⟩]
  | e :: m, k, v => if e.t.addr = k.addr then ⟨e.t, v⟩ :: m else e :: mapSet m k v

/-- The builtin `delete(Targets, t)`. -/
def mapDelete (m : List Entry) (k : SystemInfoPtr) : List Entry :=
  m.filter (fun e => e.t.addr != k.addr)

/-- The assignment `Targets[agent].Conn = conn` through the stored `*Control`. -/
def setConn (m : List Entry) (agent : SystemInfoPtr) (conn : Nat) : List Entry :=
  m.map (fun e => if e.t.addr = agent.addr then { e with ctl := { e.ctl with Conn := some conn } } else e)

/-! ## Registry lookups (`cc.go`, lines 78-98) -/

/-- The function `GetTargetFromIndex`: the first target in iteration order whose control
index is `index`, nil if there is none. -/
def GetTargetFromIndex (Targets : List Entry) (index : Int) : Option SystemInfoPtr :=
  match Targets with
  | [] => none
  | e :: rest => if e.ctl.Index = index then some e.t else GetTargetFromIndex rest index

/-- The function `GetTargetFromTag`: the first target in iteration order whose tag is
`tag`, nil if there is none. -/
def GetTargetFromTag (Targets : List Entry) (tag : String) : Option SystemInfoPtr :=
  match Targets with
  | [] => none
  | e :: rest => if e.t.val.Tag = tag then some e.t else GetTargetFromTag rest tag

/-- Modelled from the spec: `agentExists` is called by `checkinHandler` but defined in a
file of package `cc` that is not part of the sources at hand. The spec says of
`register` that it inserts "if no existing entry matches identity by tag", so the test is
membership by tag. -/
def agentExists (Targets : List Entry) (a : SystemInfo) : Bool :=
  Targets.any (fun e => e.t.val.Tag == a.Tag)

/-! ## Checkin (`cc.go`, lines 208-236) -/

/-- What `checkinHandler` gets out of the request body: `ioutil.ReadAll` fails, or
`json.Unmarshal` fails, or the body parses to a `SystemInfo`. -/
inductive Body where
  | readError
  | badJSON
  | parsed (target : SystemInfo)
deriving DecidableEq, Repr

/-- A checkin request: its body and the transport-observed `req.RemoteAddr`. -/
structure Request where
  body : Body
  RemoteAddr : String
deriving DecidableEq, Repr

/-- The handler `checkinHandler`. The variable `target` is a new object on every call, so
its address `&target` is one that no key of the map has. -/
def checkinHandler (req : Request) (s : State) : State :=
  match req.body with
  | .readError => s
  | .badJSON => s
  | .parsed parsed =>
    let target : SystemInfo := { parsed with IP := req.RemoteAddr }
    if !agentExists s.Targets target then
      let inx : Int := s.Targets.length
      { s with
        Targets := mapSet s.Targets ⟨s.heap, target⟩ { Index := inx, Conn := none }
        heap := s.heap + 1 }
    else s

/-- A sequence of checkins, handled one after the other. -/
def checkins (reqs : List Request) (s : State) : State :=
  reqs.foldl (fun st r => checkinHandler r st) s

/-! ## Registry invariant under checkins -/

/-- The tag of a registry entry. -/
def Entry.tag (e : Entry) : String := e.t.val.Tag

/-- Well-formedness of the registry: tags are pairwise distinct and every key is an
address that has already been handed out. -/
def State.TagsDistinct (s : State) : Prop :=
  (s.Targets.map Entry.tag).Nodup ∧ ∀ e ∈ s.Targets, e.t.addr < s.heap

instance (s : State) : Decidable s.TagsDistinct := by
  unfold State.TagsDistinct
  infer_instance

/-! ## Outcomes of calls -/

/-- How a call of `Send2Agent` or `PutFile` ends: the error it returns, or the run-time
panic that ends it. -/
inductive Outcome where
  /-- the call returns a nil error -/
  | nil
  /-- `errors.New("Send2Agent: Target is not connected")` -/
  | NotConnected
  /-- `errors.New("please do NOT transfer large files this way as it's too NOISY, aborting")` -/
  | TooLarge
  /-- the error of `os.Open` or `ioutil.ReadAll` -/
  | fileError
  /-- the error of `Encode` on a connection -/
  | encodeError
  /-- run-time panic: nil pointer dereference -/
  | nilDereference
deriving DecidableEq, Repr

/-! ## Sending (`cc.go`, lines 109-119) -/

/-- The function `Send2Agent`. The flag `encodeOk` says whether the transport accepts the
write that `Encode` makes on a live connection. With `ctrl.Conn` nil the encoder writes
through a nil `*h2conn.Conn`. -/
def Send2Agent (data : MsgTunData) (agent : SystemInfoPtr) (encodeOk : Bool) (s : State) :
    Outcome × State :=
  match mapGet s.Targets agent with
  | none => (.NotConnected, s)
  | some ctrl =>
    match ctrl.Conn with
    | none => (.nilDereference, s)
    | some conn =>
      if encodeOk then (.nil, { s with wire := s.wire ++ [(conn, data)] })
      else (.encodeError, s)

/-! ## Control channel (`cc.go`, lines 276-337) -/

/-- One envelope that `in.Decode` delivers, and whether `out.Encode` succeeds should the
handler echo it. -/
structure Incoming where
  msg : MsgTunData
  encodeOk : Bool
deriving DecidableEq, Repr

/-- Modelled from the spec: `processAgentData` is defined in a file of package `cc` that
is not part of the sources at hand. The spec treats it as "an opaque consumer taking
`*Envelope`", outside the registry: it is recorded as having received the envelope. -/
def processAgentData (msg : MsgTunData) (s : State) : State :=
  { s with processed := s.processed ++ [msg] }

/-- The body of the `for` loop of `tunHandler` after a successful `in.Decode(&msg)`
(lines 315-334). The flag returned is `true` when the loop goes on to the next
iteration and `false` when the handler returns. -/
def tunHandler_iteration (conn : Nat) (i : Incoming) (s : State) : Bool × State :=
  let echoed : Option State :=
    if i.msg.Payload = "hello" then
      if i.encodeOk then some { s with wire := s.wire ++ [(conn, i.msg)] } else none
    else some s
  match echoed with
  | none => (false, s)
  | some s1 =>
    let s2 := processAgentData i.msg s1
    match GetTargetFromTag s2.Targets i.msg.Tag with
    | none => (false, s2)
    | some agent => (true, { s2 with Targets := setConn s2.Targets agent conn })

/-- The `for` loop of `tunHandler`: `incoming` are the envelopes decoded in order; once
they are used up `in.Decode` fails and the handler returns. -/
def tunHandler_loop (conn : Nat) : List Incoming → State → State
  | [], s => s
  | i :: rest, s =>
    match tunHandler_iteration conn i s with
    | (true, s1) => tunHandler_loop conn rest s1
    | (false, s1) => s1

/-- The deferred function of `tunHandler` (lines 286-298): the first entry in iteration
order whose `Conn` is `conn` is deleted, then the connection is closed. -/
def tunHandler_deferred (conn : Nat) (s : State) : State :=
  { s with
    Targets :=
      match s.Targets.find? (fun e => e.ctl.Conn == some conn) with
      | none => s.Targets
      | some e => mapDelete s.Targets e.t
    closed := s.closed ++ [conn] }

/-- The handler `tunHandler`: `accept` is the result of `h2conn.Accept` (`none` when it
fails, in which case the handler returns at once, before the `defer`). -/
def tunHandler (accept : Option Nat) (incoming : List Incoming) (s : State) : State :=
  match accept with
  | none => s
  | some conn => tunHandler_deferred conn (tunHandler_loop conn incoming s)

/-- The keys of the registry are pairwise distinct, as in every Go map. -/
def KeysDistinct (m : List Entry) : Prop := (m.map (fun e => e.t.addr)).Nodup

instance (m : List Entry) : Decidable (KeysDistinct m) := by
  unfold KeysDistinct
  infer_instance

/-! ## Strings and base64 (Go standard library) -/

/-- A byte, the element type of `[]byte`. -/
abbrev Byte := Fin 256

/-- The low eight bits of a number, as a byte. -/
def toByte (n : Nat) : Byte := ⟨n % 256, Nat.mod_lt _ (by decide)⟩

/-- The UTF-8 encoding of one character: one to four bytes. -/
def utf8EncodeChar (c : Char) : List Byte :=
  let n := c.toNat
  if n < 128 then [toByte n]
  else if n < 2048 then [toByte (192 + n / 64), toByte (128 + n % 64)]
  else if n < 65536 then
    [toByte (224 + n / 4096), toByte (128 + n / 64 % 64), toByte (128 + n % 64)]
  else
    [toByte (240 + n / 262144), toByte (128 + n / 4096 % 64), toByte (128 + n / 64 % 64),
      toByte (128 + n % 64)]

/-- The UTF-8 encoding of a sequence of characters. -/
def utf8 : List Char → List Byte
  | [] => []
  | c :: cs => utf8EncodeChar c ++ utf8 cs

/-- The bytes of a Go string, `[]byte(s)`: a Go string is a sequence of bytes, and the
string functions of Go search, measure and cut it by bytes. -/
def bytesOf (s : String) : List Byte := utf8 s.data

/-- The builtin `len(s)` of a string: its number of bytes. -/
def len (s : String) : Nat := (bytesOf s).length

/-- The search of `strings.Index` on byte sequences: the byte offset of the first
occurrence of `substr` in `s`; `none` stands for the result -1. -/
def indexOfSub : List Byte → List Byte → Option Nat
  | [], substr => if substr = [] then some 0 else none
  | c :: s, substr =>
    if substr.isPrefixOf (c :: s) then some 0 else (indexOfSub s substr).map (· + 1)

/-- The loop of `strings.genSplit` for a non-empty separator: cut at the first occurrence
of `sep`, go on behind it. One unit of `fuel` is used per field, and a string never has
more occurrences of `sep` than bytes. -/
def genSplit (sep : List Byte) : Nat → List Byte → List (List Byte)
  | 0, s => [s]
  | fuel + 1, s =>
    match indexOfSub s sep with
    | none => [s]
    | some m => s.take m :: genSplit sep fuel (s.drop (m + sep.length))

/-- The call `strings.Index(s, substr)`: a byte offset, `none` for -1. -/
def Index (s substr : String) : Option Nat := indexOfSub (bytesOf s) (bytesOf substr)

/-- The call `strings.Split(s, sep)`: all substrings of `s` separated by `sep`, each given
by its bytes; an empty `sep` splits after every UTF-8 sequence. -/
def Split (s sep : String) : List (List Byte) :=
  if bytesOf sep = [] then s.data.map utf8EncodeChar
  else genSplit (bytesOf sep) (bytesOf s).length (bytesOf s)

/-- The alphabet of `base64.StdEncoding`. -/
def encodeStd : List Char :=
  "ABCDEFGHIJKLMNOPQRSTUVWXYZabcdefghijklmnopqrstuvwxyz0123456789+/".data

/-- The character that encodes the 6-bit value `i`. -/
def b64Char (i : Nat) : Char := encodeStd.getD i '='

/-- The 6-bit value a character decodes to, `none` for a character outside the
alphabet. -/
def b64Value (c : Char) : Option Nat :=
  if c ∈ encodeStd then some (encodeStd.indexOf c) else none

/-- The encoder of `base64.StdEncoding`: three bytes give four characters, a last group of
one or two bytes is padded with `=`. -/
def encodeBytes : List Byte → List Char
  | [] => []
  | [a] => [b64Char (a.val / 4), b64Char (a.val % 4 * 16), '=', '=']
  | [a, b] =>
    [b64Char (a.val / 4), b64Char (a.val % 4 * 16 + b.val / 16), b64Char (b.val % 16 * 4), '=']
  | a :: b :: c :: rest =>
    b64Char (a.val / 4) :: b64Char (a.val % 4 * 16 + b.val / 16) ::
      b64Char (b.val % 16 * 4 + c.val / 64) :: b64Char (c.val % 64) :: encodeBytes rest

/-- The call `base64.StdEncoding.EncodeToString(bytes)`. -/
def EncodeToString (bytes : List Byte) : String := String.mk (encodeBytes bytes)

/-- Decoding of one group of four characters; padding is accepted only in the last
group. -/
def decodeQuantum (c0 c1 c2 c3 : Char) (last : Bool) : Option (List Byte) :=
  match b64Value c0, b64Value c1 with
  | some v0, some v1 =>
    if c3 = '=' then
      if !last then none
      else if c2 = '=' then some [toByte (v0 * 4 + v1 / 16)]
      else
        match b64Value c2 with
        | some v2 => some [toByte (v0 * 4 + v1 / 16), toByte (v1 % 16 * 16 + v2 / 4)]
        | none => none
    else
      match b64Value c2, b64Value c3 with
      | some v2, some v3 =>
        some [toByte (v0 * 4 + v1 / 16), toByte (v1 % 16 * 16 + v2 / 4),
          toByte (v2 % 4 * 64 + v3)]
      | _, _ => none
  | _, _ => none

/-- The decoder of `base64.StdEncoding` on the characters that are not line breaks. -/
def decodeChars : List Char → Option (List Byte)
  | [] => some []
  | c0 :: c1 :: c2 :: c3 :: rest =>
    match decodeQuantum c0 c1 c2 c3 rest.isEmpty with
    | none => none
    | some bs => (decodeChars rest).map (fun more => bs ++ more)
  | _ => none

/-- The call `base64.StdEncoding.DecodeString(s)`; `none` stands for a
`CorruptInputError`. Carriage returns and line feeds are skipped. -/
def DecodeString (s : String) : Option (List Byte) :=
  decodeChars (s.data.filter (fun c => c != '\r' && c != '\n'))

/-! ## File transfer (`cc.go`, lines 121-169) -/

/-- The number of low bits that the conversion to `float32` drops from `n`: the least `e`
with `n < 2 ^ (24 + e)`, searched upwards from `e` with `fuel` steps. -/
def float32Shift (n : Nat) : Nat → Nat → Nat
  | 0, e => e
  | fuel + 1, e => if n < 2 ^ (24 + e) then e else float32Shift n fuel (e + 1)

/-- Rounding of `size` to a multiple of `2 ^ e`, to nearest with ties to the even
multiple: what the conversion to `float32` does once `e` low bits have to go. -/
def roundToEven (size e : Nat) : Nat :=
  let q := size / 2 ^ e
  let r := size % 2 ^ e
  let up : Bool := decide (2 ^ e < 2 * r) || (decide (2 * r = 2 ^ e) && decide (q % 2 = 1))
  (if up then q + 1 else q) * 2 ^ e

/-- The conversion `float32(size)` of a non-negative 64-bit `int`, as the exact value of
the result: `size` rounded to 24 significant bits, to nearest with ties to even. -/
def float32 (size : Nat) : ℚ := (roundToEven size (float32Shift size 40 0) : Nat)

/-- The variable `sizemB` of `PutFile`: `float32(size) / 1024 / 1024`. Dividing a
`float32` by a power of two is exact, so the value is that of the rational quotient. -/
def sizemB (size : Nat) : ℚ := float32 size / 1024 / 1024

/-- The envelope `fileData` that `PutFile` builds (lines 154-160); `OpSep` is the
constant `agent.OpSep`. -/
def PutFile_fileData (OpSep rpath : String) (bytes : List Byte) (a : SystemInfoPtr) :
    MsgTunData :=
  { Payload := "FILE" ++ OpSep ++ rpath ++ OpSep ++ EncodeToString bytes
    Tag := a.val.Tag }

/-- The function `PutFile`. The file system is `fs`: the content `os.Open` and
`ioutil.ReadAll` deliver for a path, `none` when either fails. The argument `Targets[a].Index`
of the notice is evaluated before the notice is printed and before anything is sent. -/
def PutFile (OpSep : String) (fs : String → Option (List Byte)) (lpath rpath : String)
    (a : SystemInfoPtr) (encodeOk : Bool) (s : State) : Outcome × State :=
  match fs lpath with
  | none => (.fileError, s)
  | some bytes =>
    let size := bytes.length
    if sizemB size > 20 then (.TooLarge, s)
    else
      match mapGet s.Targets a with
      | none => (.nilDereference, s)
      | some _ => Send2Agent (PutFile_fileData OpSep rpath bytes a) a encodeOk s

/-! ## Reverse shell (`rshell.go`) -/

/-- The variable `agent.H2Stream`: the current shell stream. -/
structure H2StreamHandle where
  Conn : Option Nat
  Ctx : Option Nat
  Cancel : Option Nat
deriving DecidableEq, Repr

/-- What `cleanup` of `reverseBash` reads and changes. -/
structure ShellState where
  H2Stream : H2StreamHandle
  /-- calls of the cancel function -/
  cancelCalls : Nat
  /-- the settings handed to each run of `stty -F /dev/tty <settings>`, oldest first -/
  termRestores : List String
  /-- calls of `ttyf.Close` -/
  ttyCloses : Nat
  /-- calls of `agent.H2Stream.Conn.Close` -/
  connCloses : Nat
  /-- calls of `TermClear` -/
  termClears : Nat
deriving DecidableEq, Repr

/-- The closure `cleanup` of `reverseBash` (lines 85-121); `oldTerm` is the captured
variable with the saved terminal settings. Errors of `stty`, `ttyf.Close` and
`Conn.Close` are printed and do not change what follows. -/
def cleanup (oldTerm : String) (s : ShellState) : ShellState :=
  if s.H2Stream.Conn = none ∨ s.H2Stream.Ctx = none ∨ s.H2Stream.Cancel = none then s
  else
    { H2Stream := { Conn := none, Ctx := none, Cancel := none }
      cancelCalls := s.cancelCalls + 1
      termRestores := s.termRestores ++ [oldTerm]
      ttyCloses := s.ttyCloses + 1
      connCloses := s.connCloses + 1
      termClears := s.termClears + 1 }

/-- One chunk that the outbound pump takes from the channel `send`, with what the pump
observes at that moment: whether `ctx.Done()` is ready, the value of
`agent.H2Stream.Conn`, and whether `Write` succeeds. -/
structure Outgoing where
  chunk : List Byte
  done : Bool
  Conn : Option Nat
  writeOk : Bool
deriving DecidableEq, Repr

/-- The effects of the outbound pump. -/
structure Pump where
  /-- chunks written to a remote connection, oldest first -/
  written : List (Nat × List Byte)
  /-- chunks the pump itself has sent onto the channel `send` -/
  queued : List (List Byte)
  /-- whether the goroutine has not returned -/
  running : Bool
deriving DecidableEq, Repr

/-- The bytes `[]byte("exit\n\n")`. -/
def exitSeq : List Byte := [101, 120, 105, 116, 10, 10]

/-- The deferred function of the outbound pump (lines 48-51): `send <- []byte("exit\n\n")`,
run when the goroutine returns. -/
def outboundPump_deferred (p : Pump) : Pump :=
  { p with queued := p.queued ++ [exitSeq], running := false }

/-- The outbound pump of `reverseBash` (lines 46-70) on the chunks it takes from `send`,
in order. When the chunks are used up the pump waits for the next one. -/
def outboundPump : List Outgoing → Pump → Pump
  | [], p => p
  | o :: rest, p =>
    if o.done then outboundPump_deferred p
    else
      match o.Conn with
      | none => outboundPump rest p
      | some conn =>
        if o.writeOk then outboundPump rest { p with written := p.written ++ [(conn, o.chunk)] }
        else outboundPump_deferred p

/-- A pump that has just been started. -/
def Pump.start : Pump := { written := [], queued := [], running := true }

/-! ## Concrete inputs -/

/-- An agent identity as it arrives in a checkin body. -/
def sampleInfo (tag : String) : SystemInfo :=
  { Tag := tag, OS := "linux", Kernel := "", Arch := "", CPU := "", Mem := "", IP := "",
    IPs := [], HasRoot := false }

/-- A checkin request of the agent with the given tag, from `10.0.0.5`. -/
def sampleCheckin (tag : String) : Request :=
  { body := .parsed (sampleInfo tag), RemoteAddr := "10.0.0.5" }

/-- The registry after the agents `a` and `b` have checked in, in this order. -/
def twoAgents : State :=
  checkinHandler (sampleCheckin "b") (checkinHandler (sampleCheckin "a") State.init)

/-- Agents `a` and `b` check in, `a` uses the control connection 7 for one command and
disconnects, then agent `c` checks in. -/
def reconnectTrace : State :=
  checkinHandler (sampleCheckin "c")
    (tunHandler (some 7) [⟨⟨"cmd", "a"⟩, true⟩] twoAgents)

/-- The registry of `twoAgents` after agent `b` has sent a command on the control
connection 7. -/
def attached : State :=
  (tunHandler_iteration 7 ⟨⟨"cmd", "b"⟩, true⟩ twoAgents).2

/-- The identity of agent `b` in `twoAgents` and `attached`. -/
def agentB : SystemInfoPtr := ⟨1, { sampleInfo "b" with IP := "10.0.0.5" }⟩

/-- An identity that has never checked in. -/
def stranger : SystemInfoPtr := ⟨0, sampleInfo "a"⟩

/-- A file system in which every path holds a file of 20971521 zero bytes. -/
def bigFiles : String → Option (List Byte) := fun _ => some (List.replicate 20971521 0)

/-- A file system in which every path holds the two bytes `hi`. -/
def smallFiles : String → Option (List Byte) := fun _ => some [104, 105]

/-- A shell session that is active. -/
def activeShell : ShellState :=
  { H2Stream := { Conn := some 1, Ctx := some 2, Cancel := some 3 }
    cancelCalls := 0, termRestores := [], ttyCloses := 0, connCloses := 0, termClears := 0 }

theorem agentExists_iff (m : List Entry) (a : SystemInfo) :
    agentExists m a = true ↔ ∃ e ∈ m, e.t.val.Tag = a.Tag := by
  simp [agentExists, List.any_eq_true]

theorem mapSet_fresh (m : List Entry) (k : SystemInfoPtr) (v : Control)
    (h : ∀ e ∈ m, e.t.addr ≠ k.addr) : mapSet m k v = m ++ [⟨k, v⟩] := by
  induction m with
  | nil => rfl
  | cons e m ih =>
    have he : e.t.addr ≠ k.addr := h e (List.mem_cons_self _ _)
    have hm : ∀ x ∈ m, x.t.addr ≠ k.addr := fun x hx => h x (List.mem_cons_of_mem _ hx)
    simp [mapSet, he, ih hm]

theorem checkinHandler_known (req : Request) (s : State) (target : SystemInfo)
    (hb : req.body = .parsed target) (h : ∃ e ∈ s.Targets, e.t.val.Tag = target.Tag) :
    checkinHandler req s = s := by
  have hx : agentExists s.Targets { target with IP := req.RemoteAddr } = true :=
    (agentExists_iff _ _).2 h
  simp [checkinHandler, hb, hx]

theorem checkinHandler_new (req : Request) (s : State) (target : SystemInfo)
    (hb : req.body = .parsed target) (hk : ∀ e ∈ s.Targets, e.t.addr < s.heap)
    (h : ∀ e ∈ s.Targets, e.t.val.Tag ≠ target.Tag) :
    checkinHandler req s =
      { s with
        Targets := s.Targets ++
          [⟨⟨s.heap, { target with IP := req.RemoteAddr }⟩, ⟨(s.Targets.length : Int), none⟩⟩]
        heap := s.heap + 1 } := by
  have hx : agentExists s.Targets { target with IP := req.RemoteAddr } = false := by
    cases hc : agentExists s.Targets { target with IP := req.RemoteAddr } with
    | false => rfl
    | true =>
      obtain ⟨e, he, ht⟩ := (agentExists_iff _ _).1 hc
      exact absurd ht (h e he)
  have hf : mapSet s.Targets ⟨s.heap, { target with IP := req.RemoteAddr }⟩
      ⟨(s.Targets.length : Int), none⟩ = s.Targets ++
        [⟨⟨s.heap, { target with IP := req.RemoteAddr }⟩, ⟨(s.Targets.length : Int), none⟩⟩] :=
    mapSet_fresh _ _ _ (fun e he => Nat.ne_of_lt (hk e he))
  simp [checkinHandler, hb, hx, hf]

theorem checkinHandler_cases (req : Request) (s : State)
    (hk : ∀ e ∈ s.Targets, e.t.addr < s.heap) :
    checkinHandler req s = s ∨
      ∃ target, req.body = .parsed target ∧ (∀ e ∈ s.Targets, e.t.val.Tag ≠ target.Tag) ∧
        checkinHandler req s =
          { s with
            Targets := s.Targets ++
              [⟨⟨s.heap, { target with IP := req.RemoteAddr }⟩,
                ⟨(s.Targets.length : Int), none⟩⟩]
            heap := s.heap + 1 } := by
  cases hb : req.body with
  | readError => left; simp [checkinHandler, hb]
  | badJSON => left; simp [checkinHandler, hb]
  | parsed target =>
    by_cases h : ∃ e ∈ s.Targets, e.t.val.Tag = target.Tag
    · left; exact checkinHandler_known req s target hb h
    · right
      have h2 : ∀ e ∈ s.Targets, e.t.val.Tag ≠ target.Tag := fun e he ht => h ⟨e, he, ht⟩
      exact ⟨target, rfl, h2, checkinHandler_new req s target hb hk h2⟩

theorem checkinHandler_tagsDistinct (req : Request) (s : State) (h : s.TagsDistinct) :
    (checkinHandler req s).TagsDistinct := by
  rcases checkinHandler_cases req s h.2 with h1 | ⟨target, _, hnew, h1⟩
  · rw [h1]; exact h
  · rw [h1]
    refine ⟨?_, ?_⟩
    · simp only [List.map_append, List.map_cons, List.map_nil]
      refine List.Nodup.append h.1 (List.nodup_singleton _) ?_
      intro x hx hx2
      simp only [List.mem_singleton] at hx2
      obtain ⟨e, he, rfl⟩ := List.mem_map.1 hx
      exact hnew e he hx2
    · intro e he
      simp only [List.mem_append, List.mem_singleton] at he
      rcases he with he | rfl
      · exact Nat.lt_succ_of_lt (h.2 e he)
      · exact Nat.lt_succ_self _

theorem checkinHandler_keeps (req : Request) (s : State) (h : s.TagsDistinct) (e : Entry)
    (he : e ∈ s.Targets) : e ∈ (checkinHandler req s).Targets := by
  rcases checkinHandler_cases req s h.2 with h1 | ⟨target, _, _, h1⟩
  · rw [h1]; exact he
  · rw [h1]; exact List.mem_append_left _ he

theorem checkins_tagsDistinct (reqs : List Request) (s : State) (h : s.TagsDistinct) :
    (checkins reqs s).TagsDistinct := by
  induction reqs generalizing s with
  | nil => exact h
  | cons r rs ih => exact ih _ (checkinHandler_tagsDistinct r s h)

theorem checkins_keeps (reqs : List Request) (s : State) (h : s.TagsDistinct) (e : Entry)
    (he : e ∈ s.Targets) : e ∈ (checkins reqs s).Targets := by
  induction reqs generalizing s with
  | nil => exact he
  | cons r rs ih =>
    exact ih _ (checkinHandler_tagsDistinct r s h) (checkinHandler_keeps r s h e he)

theorem init_tagsDistinct : State.init.TagsDistinct := by
  simp [State.TagsDistinct, State.init]

/-! ## Claims -/

/-- C1: a checkin whose tag already belongs to a registry entry leaves the state (and so
the registry) unchanged, whatever the state; after any sequence of checkins from the empty
registry the tags of the entries are pairwise distinct; and an entry created at the first
checkin of a tag, with index the registry size at that moment, is after any further
checkins still the only entry with that tag. -/
theorem checkinHandler_same_tag_idempotent (s : State) (req : Request) (target : SystemInfo)
    (pre post : List Request) :
    (req.body = .parsed target → (∃ e ∈ s.Targets, e.t.val.Tag = target.Tag) →
      checkinHandler req s = s) ∧
    ((checkins pre State.init).Targets.map Entry.tag).Nodup ∧
    (req.body = .parsed target →
      (∀ e ∈ (checkins pre State.init).Targets, e.t.val.Tag ≠ target.Tag) →
      ∃ e ∈ (checkins post (checkinHandler req (checkins pre State.init))).Targets,
        e.t.val.Tag = target.Tag ∧
        e.ctl.Index = ((checkins pre State.init).Targets.length : Int) ∧
        ∀ e2 ∈ (checkins post (checkinHandler req (checkins pre State.init))).Targets,
          e2.t.val.Tag = target.Tag → e2 = e) := by
  have h0 : (checkins pre State.init).TagsDistinct := checkins_tagsDistinct pre _ init_tagsDistinct
  refine ⟨fun hb h => checkinHandler_known req s target hb h, h0.1, ?_⟩
  intro hb hnew
  have h1 := checkinHandler_new req _ target hb h0.2 hnew
  have hd1 : (checkinHandler req (checkins pre State.init)).TagsDistinct :=
    checkinHandler_tagsDistinct req _ h0
  have hd2 := checkins_tagsDistinct post _ hd1
  refine ⟨⟨⟨(checkins pre State.init).heap, { target with IP := req.RemoteAddr }⟩,
    ⟨((checkins pre State.init).Targets.length : Int), none⟩⟩, ?_, rfl, rfl, ?_⟩
  · apply checkins_keeps post _ hd1
    rw [h1]
    simp
  · intro e2 he2 ht
    have hmem := checkins_keeps post _ hd1
      ⟨⟨(checkins pre State.init).heap, { target with IP := req.RemoteAddr }⟩,
        ⟨((checkins pre State.init).Targets.length : Int), none⟩⟩ (by rw [h1]; simp)
    exact List.inj_on_of_nodup_map hd2.1 he2 hmem (by simpa [Entry.tag] using ht)

/-- C1, witness: agent `a` checks in again when `a` and `b` are registered, and agent `c`
checks in for the first time after `a` and keeps index 1 through two more checkins. -/
theorem checkinHandler_same_tag_idempotent_witness :
    checkinHandler (sampleCheckin "a") twoAgents = twoAgents ∧
    ∃ e ∈ (checkins [sampleCheckin "a", sampleCheckin "c"]
        (checkinHandler (sampleCheckin "c") (checkins [sampleCheckin "a"] State.init))).Targets,
      e.t.val.Tag = "c" ∧
      e.ctl.Index = ((checkins [sampleCheckin "a"] State.init).Targets.length : Int) ∧
      ∀ e2 ∈ (checkins [sampleCheckin "a", sampleCheckin "c"]
          (checkinHandler (sampleCheckin "c") (checkins [sampleCheckin "a"] State.init))).Targets,
        e2.t.val.Tag = "c" → e2 = e :=
  ⟨(checkinHandler_same_tag_idempotent twoAgents (sampleCheckin "a") (sampleInfo "a") [] []).1
      rfl (by decide),
    (checkinHandler_same_tag_idempotent State.init (sampleCheckin "c") (sampleInfo "c")
      [sampleCheckin "a"] [sampleCheckin "a", sampleCheckin "c"]).2.2 rfl (by decide)⟩

/-! ### Lookups by index -/

/-- C2: `checkinHandler` takes the index from the current size of the map and the exit of
`tunHandler` deletes an entry, so indices collide: after `a` and `b` check in, `a`
disconnects and `c` checks in, the entries of `b` and of `c` both carry index 1, and
`GetTargetFromIndex 1` returns `b` or `c` depending on the iteration order. -/
theorem GetTargetFromIndex_collision :
    reconnectTrace.Targets.map (fun e => (e.t.addr, e.t.val.Tag, e.ctl.Index)) =
      [(1, "b", 1), (2, "c", 1)] ∧
    (GetTargetFromIndex reconnectTrace.Targets 1).map (fun t => t.val.Tag) = some "b" ∧
    (GetTargetFromIndex reconnectTrace.Targets.reverse 1).map (fun t => t.val.Tag) =
      some "c" := by
  decide

/-! ### Sending -/

theorem Send2Agent_unregistered (data : MsgTunData) (agent : SystemInfoPtr) (encodeOk : Bool)
    (s : State) (h : mapGet s.Targets agent = none) :
    Send2Agent data agent encodeOk s = (.NotConnected, s) := by
  simp [Send2Agent, h]

theorem Send2Agent_nil_conn (data : MsgTunData) (agent : SystemInfoPtr) (encodeOk : Bool)
    (s : State) (ctrl : Control) (h : mapGet s.Targets agent = some ctrl)
    (hc : ctrl.Conn = none) :
    Send2Agent data agent encodeOk s = (.nilDereference, s) := by
  simp [Send2Agent, h, hc]

/-- C3: for an identity entered by a checkin and not yet attached (`Conn` nil),
`Send2Agent` passes the test `ctrl == nil` and encodes onto the nil connection: the call
ends in a nil dereference, it does not return the error "Target is not connected". -/
theorem Send2Agent_checked_in_not_attached :
    mapGet (checkinHandler (sampleCheckin "a") State.init).Targets
        ⟨0, { sampleInfo "a" with IP := "10.0.0.5" }⟩ = some ⟨0, none⟩ ∧
    Send2Agent ⟨"cmd", "a"⟩ ⟨0, { sampleInfo "a" with IP := "10.0.0.5" }⟩ true
        (checkinHandler (sampleCheckin "a") State.init) =
      (.nilDereference, checkinHandler (sampleCheckin "a") State.init) := by
  decide

/-! ### Control channel -/

theorem setConn_keys (m : List Entry) (agent : SystemInfoPtr) (conn : Nat) :
    (setConn m agent conn).map (fun e => e.t.addr) = m.map (fun e => e.t.addr) := by
  induction m with
  | nil => rfl
  | cons e m ih =>
    simp only [setConn, List.map_cons, List.map_map] at ih ⊢
    rw [ih]
    by_cases h : e.t.addr = agent.addr <;> simp [h]

theorem tunHandler_iteration_keys (conn : Nat) (i : Incoming) (s : State) :
    (tunHandler_iteration conn i s).2.Targets.map (fun e => e.t.addr) =
      s.Targets.map (fun e => e.t.addr) := by
  unfold tunHandler_iteration
  by_cases hp : i.msg.Payload = "hello"
  · cases hok : i.encodeOk with
    | false => simp [hp, hok]
    | true =>
      simp only [hp, hok, if_true, processAgentData]
      cases hg : GetTargetFromTag s.Targets i.msg.Tag with
      | none => simp
      | some agent => simp [setConn_keys]
  · simp only [hp, if_false, processAgentData]
    cases hg : GetTargetFromTag s.Targets i.msg.Tag with
    | none => simp
    | some agent => simp [setConn_keys]

theorem tunHandler_loop_keys (conn : Nat) (incoming : List Incoming) (s : State) :
    (tunHandler_loop conn incoming s).Targets.map (fun e => e.t.addr) =
      s.Targets.map (fun e => e.t.addr) := by
  induction incoming generalizing s with
  | nil => rfl
  | cons i rest ih =>
    have hk := tunHandler_iteration_keys conn i s
    unfold tunHandler_loop
    rcases hit : tunHandler_iteration conn i s with ⟨b, s1⟩
    rw [hit] at hk
    cases b with
    | true => simp only; rw [ih s1]; exact hk
    | false => simpa using hk

theorem deferred_keeps (conn : Nat) (s : State) (hk : KeysDistinct s.Targets) (e : Entry)
    (he : e ∈ s.Targets)
    (hne : s.Targets.find? (fun x => x.ctl.Conn == some conn) ≠ some e) :
    e ∈ (tunHandler_deferred conn s).Targets := by
  unfold tunHandler_deferred
  cases hf : s.Targets.find? (fun x => x.ctl.Conn == some conn) with
  | none => simpa using he
  | some x =>
    have hx : x ∈ s.Targets := List.mem_of_find?_eq_some hf
    have hex : e ≠ x := fun h => hne (by rw [hf, h])
    have hax : e.t.addr ≠ x.t.addr := fun h => hex (List.inj_on_of_nodup_map hk he hx h)
    simp [mapDelete, List.mem_filter, he, hax]

theorem deferred_sub (conn : Nat) (s : State) (e : Entry)
    (he : e ∈ (tunHandler_deferred conn s).Targets) : e ∈ s.Targets := by
  unfold tunHandler_deferred at he
  cases hf : s.Targets.find? (fun x => x.ctl.Conn == some conn) with
  | none => simpa [hf] using he
  | some x =>
    simp only [hf, mapDelete, List.mem_filter] at he
    exact he.1

theorem deferred_removes (conn : Nat) (s : State) (x : Entry)
    (hf : s.Targets.find? (fun x => x.ctl.Conn == some conn) = some x) :
    x ∉ (tunHandler_deferred conn s).Targets := by
  unfold tunHandler_deferred
  simp [hf, mapDelete, List.mem_filter]

theorem deferred_clears (conn : Nat) (s : State)
    (h1 : ∀ e1 ∈ s.Targets, ∀ e2 ∈ s.Targets,
      e1.ctl.Conn = some conn → e2.ctl.Conn = some conn → e1 = e2)
    (e : Entry) (he : e ∈ (tunHandler_deferred conn s).Targets) :
    e.ctl.Conn ≠ some conn := by
  intro hc
  have hes : e ∈ s.Targets := deferred_sub conn s e he
  cases hf : s.Targets.find? (fun x => x.ctl.Conn == some conn) with
  | none =>
    have := List.find?_eq_none.1 hf e hes
    simp [hc] at this
  | some x =>
    have hx : x ∈ s.Targets := List.mem_of_find?_eq_some hf
    have hxc : x.ctl.Conn = some conn := by
      have := List.find?_some hf
      simpa using this
    have hex : e = x := h1 e hes x hx hc hxc
    exact deferred_removes conn s x hf (hex ▸ he)

/-- C7 (amended): for every registry (a map: keys pairwise distinct), every control
connection `conn` and every sequence of decoded envelopes, when `tunHandler` exits the
first entry in iteration order whose `Conn` is `conn` has been deleted and nothing else:
every other entry - in particular every entry whose `Conn` is not `conn` - is still
present with the same index and connection, no entry has been added, and if at most one
entry held `conn` then no entry of the registry holds `conn` afterwards. -/
theorem tunHandler_exit_detaches_first (s : State) (conn : Nat) (incoming : List Incoming)
    (hk : KeysDistinct s.Targets) :
    (∀ e ∈ (tunHandler_loop conn incoming s).Targets,
      (tunHandler_loop conn incoming s).Targets.find? (fun x => x.ctl.Conn == some conn) ≠
        some e → e ∈ (tunHandler (some conn) incoming s).Targets) ∧
    (∀ e ∈ (tunHandler_loop conn incoming s).Targets,
      e.ctl.Conn ≠ some conn → e ∈ (tunHandler (some conn) incoming s).Targets) ∧
    (∀ e ∈ (tunHandler (some conn) incoming s).Targets,
      e ∈ (tunHandler_loop conn incoming s).Targets) ∧
    (∀ x, (tunHandler_loop conn incoming s).Targets.find?
        (fun x => x.ctl.Conn == some conn) = some x →
      x ∉ (tunHandler (some conn) incoming s).Targets) ∧
    ((∀ e1 ∈ (tunHandler_loop conn incoming s).Targets,
        ∀ e2 ∈ (tunHandler_loop conn incoming s).Targets,
        e1.ctl.Conn = some conn → e2.ctl.Conn = some conn → e1 = e2) →
      ∀ e ∈ (tunHandler (some conn) incoming s).Targets, e.ctl.Conn ≠ some conn) := by
  have hkL : KeysDistinct (tunHandler_loop conn incoming s).Targets := by
    unfold KeysDistinct
    rw [tunHandler_loop_keys]
    exact hk
  refine ⟨fun e he hne => deferred_keeps conn _ hkL e he hne, ?_,
    fun e he => deferred_sub conn _ e he, fun x hx => deferred_removes conn _ x hx,
    fun h1 e he => deferred_clears conn _ h1 e he⟩
  intro e he hc
  apply deferred_keeps conn _ hkL e he
  intro hf
  have := List.find?_some hf
  simp at this
  exact hc this

/-- C7, counterexample: agents `a` and `b` have checked in and both use the control
connection 7; when `tunHandler` exits, the entry of `a` is deleted and the entry of `b`
is still in the registry with `Conn` 7. -/
theorem tunHandler_exit_leaves_second_holder :
    (tunHandler (some 7) [⟨⟨"cmd", "a"⟩, true⟩, ⟨⟨"cmd", "b"⟩, true⟩] twoAgents).Targets.map
        (fun e => (e.t.val.Tag, e.ctl.Index, e.ctl.Conn)) = [("b", 1, some 7)] := by
  decide

/-- C7, witness: agent `a` alone uses connection 7; at exit its entry is gone and the
entry of `b` is untouched. -/
theorem tunHandler_exit_detaches_first_witness :
    KeysDistinct twoAgents.Targets ∧
    ∀ e ∈ (tunHandler_loop 7 [⟨⟨"cmd", "a"⟩, true⟩] twoAgents).Targets,
      e.ctl.Conn ≠ some 7 → e ∈ (tunHandler (some 7) [⟨⟨"cmd", "a"⟩, true⟩] twoAgents).Targets :=
  ⟨by decide,
    (tunHandler_exit_detaches_first twoAgents 7 [⟨⟨"cmd", "a"⟩, true⟩] (by decide)).2.1⟩

theorem GetTargetFromTag_some (m : List Entry) (tag : String)
    (h : ∃ e ∈ m, e.t.val.Tag = tag) :
    ∃ e ∈ m, e.t.val.Tag = tag ∧ GetTargetFromTag m tag = some e.t := by
  induction m with
  | nil => simp at h
  | cons x m ih =>
    by_cases hx : x.t.val.Tag = tag
    · exact ⟨x, List.mem_cons_self _ _, hx, by simp [GetTargetFromTag, hx]⟩
    · obtain ⟨e, he, ht⟩ := h
      have hem : e ∈ m := by
        rcases List.mem_cons.1 he with rfl | hm
        · exact absurd ht hx
        · exact hm
      obtain ⟨e2, he2, ht2, hg⟩ := ih ⟨e, hem, ht⟩
      exact ⟨e2, List.mem_cons_of_mem _ he2, ht2, by simp [GetTargetFromTag, hx, hg]⟩

theorem GetTargetFromTag_none (m : List Entry) (tag : String)
    (h : ∀ e ∈ m, e.t.val.Tag ≠ tag) : GetTargetFromTag m tag = none := by
  induction m with
  | nil => rfl
  | cons x m ih =>
    have hx : x.t.val.Tag ≠ tag := h x (List.mem_cons_self _ _)
    simp [GetTargetFromTag, hx, ih (fun e he => h e (List.mem_cons_of_mem _ he))]

theorem tunHandler_iteration_echoed (conn : Nat) (i : Incoming) (s : State)
    (hecho : i.msg.Payload = "hello" → i.encodeOk = true) :
    tunHandler_iteration conn i s =
      match GetTargetFromTag s.Targets i.msg.Tag with
      | none =>
        (false, processAgentData i.msg
          (if i.msg.Payload = "hello" then { s with wire := s.wire ++ [(conn, i.msg)] } else s))
      | some agent =>
        (true, { processAgentData i.msg
          (if i.msg.Payload = "hello" then { s with wire := s.wire ++ [(conn, i.msg)] }
            else s) with Targets := setConn s.Targets agent conn }) := by
  unfold tunHandler_iteration
  by_cases hp : i.msg.Payload = "hello"
  · simp only [hp, hecho hp, if_true, processAgentData]
  · simp only [hp, if_false, processAgentData]

theorem tunHandler_iteration_echo_failed (conn : Nat) (i : Incoming) (s : State)
    (hp : i.msg.Payload = "hello") (hok : i.encodeOk = false) :
    tunHandler_iteration conn i s = (false, s) := by
  simp [tunHandler_iteration, hp, hok]

/-- C9 (amended): one iteration of the loop of `tunHandler` on a decoded envelope received
on connection `conn`. When the envelope is not a `hello` whose echo fails to encode: if
some registry entry has the envelope's tag, then for one such entry (the first in
iteration order, the one `GetTargetFromTag` returns) the `Conn` is `conn` afterwards and
the index is unchanged, every entry under another key is unchanged and the loop
continues; if no entry has the tag, the registry is unchanged and the handler stops. When
the envelope is a `hello` and encoding the echo fails, on whatever connection and in
whatever state, the handler stops and the state, the registry included, is as it was. -/
theorem tunHandler_iteration_rebinds (s : State) (conn : Nat) (i : Incoming) :
    ((i.msg.Payload = "hello" → i.encodeOk = true) →
      ((∃ e ∈ s.Targets, e.t.val.Tag = i.msg.Tag) →
        ∃ e ∈ s.Targets, e.t.val.Tag = i.msg.Tag ∧
          GetTargetFromTag s.Targets i.msg.Tag = some e.t ∧
          (tunHandler_iteration conn i s).1 = true ∧
          (tunHandler_iteration conn i s).2.Targets =
            s.Targets.map (fun x =>
              if x.t.addr = e.t.addr then ⟨x.t, ⟨x.ctl.Index, some conn⟩⟩ else x)) ∧
      ((∀ e ∈ s.Targets, e.t.val.Tag ≠ i.msg.Tag) →
        (tunHandler_iteration conn i s).1 = false ∧
          (tunHandler_iteration conn i s).2.Targets = s.Targets)) ∧
    (i.msg.Payload = "hello" → i.encodeOk = false →
      tunHandler_iteration conn i s = (false, s)) := by
  refine ⟨?_, fun hp hok => tunHandler_iteration_echo_failed conn i s hp hok⟩
  intro hecho
  rw [tunHandler_iteration_echoed conn i s hecho]
  constructor
  · intro h
    obtain ⟨e, he, ht, hg⟩ := GetTargetFromTag_some s.Targets i.msg.Tag h
    refine ⟨e, he, ht, hg, ?_, ?_⟩
    · simp [hg]
    · simp [hg, setConn]
  · intro h
    have hg := GetTargetFromTag_none s.Targets i.msg.Tag h
    simp [hg, processAgentData]
    split <;> rfl

/-- C9, counterexample: agent `a` is registered and sends `hello` on connection 7, and
echoing the `hello` fails: the handler returns with the registry as it was, the entry of
`a` is not bound to connection 7. -/
theorem tunHandler_iteration_hello_echo_fails :
    (∃ e ∈ (checkinHandler (sampleCheckin "a") State.init).Targets, e.t.val.Tag = "a") ∧
    tunHandler_iteration 7 ⟨⟨"hello", "a"⟩, false⟩
        (checkinHandler (sampleCheckin "a") State.init) =
      (false, checkinHandler (sampleCheckin "a") State.init) ∧
    (checkinHandler (sampleCheckin "a") State.init).Targets.map (fun e => e.ctl.Conn) =
      [none] := by
  decide

/-- C9, witness: agent `b` of the two registered agents sends a command on connection 7,
the loop continues and the entry of `b` is bound to the connection; and agent `b` sends a
`hello` on connection 9 whose echo fails, the handler stops and nothing has changed. -/
theorem tunHandler_iteration_rebinds_witness :
    (∃ e ∈ twoAgents.Targets, e.t.val.Tag = "b") ∧
    (∃ e ∈ twoAgents.Targets, e.t.val.Tag = "b" ∧
        GetTargetFromTag twoAgents.Targets "b" = some e.t ∧
        (tunHandler_iteration 7 ⟨⟨"cmd", "b"⟩, true⟩ twoAgents).1 = true ∧
        (tunHandler_iteration 7 ⟨⟨"cmd", "b"⟩, true⟩ twoAgents).2.Targets =
          twoAgents.Targets.map (fun x =>
            if x.t.addr = e.t.addr then ⟨x.t, ⟨x.ctl.Index, some 7⟩⟩ else x)) ∧
    tunHandler_iteration 9 ⟨⟨"hello", "b"⟩, false⟩ twoAgents = (false, twoAgents) :=
  ⟨by decide,
    ((tunHandler_iteration_rebinds twoAgents 7 ⟨⟨"cmd", "b"⟩, true⟩).1 (by decide)).1
      (by decide),
    (tunHandler_iteration_rebinds twoAgents 9 ⟨⟨"hello", "b"⟩, false⟩).2 rfl rfl⟩

/-! ### Base64 -/

theorem b64Value_b64Char : ∀ i : Nat, i < 64 → b64Value (b64Char i) = some i := by
  decide

theorem b64Char_ne_pad : ∀ i : Nat, i < 64 → b64Char i ≠ '=' := by
  decide

theorem b64Char_ne_break : ∀ i : Nat, i < 64 → (b64Char i ≠ '\r' ∧ b64Char i ≠ '\n') := by
  decide

theorem toByte_val (a : Byte) (n : Nat) (h : n = a.val) : toByte n = a := by
  apply Fin.ext
  have := a.isLt
  simp only [toByte, h]
  omega

theorem decodeQuantum_three (a b c : Byte) (last : Bool) :
    decodeQuantum (b64Char (a.val / 4)) (b64Char (a.val % 4 * 16 + b.val / 16))
      (b64Char (b.val % 16 * 4 + c.val / 64)) (b64Char (c.val % 64)) last = some [a, b, c] := by
  have ha := a.isLt
  have hb := b.isLt
  have hc := c.isLt
  have h0 := b64Value_b64Char (a.val / 4) (by omega)
  have h1 := b64Value_b64Char (a.val % 4 * 16 + b.val / 16) (by omega)
  have h2 := b64Value_b64Char (b.val % 16 * 4 + c.val / 64) (by omega)
  have h3 := b64Value_b64Char (c.val % 64) (by omega)
  have hp := b64Char_ne_pad (c.val % 64) (by omega)
  simp only [decodeQuantum, h0, h1, h2, h3, hp, if_false]
  rw [toByte_val a _ (by omega), toByte_val b _ (by omega), toByte_val c _ (by omega)]

theorem decodeQuantum_two (a b : Byte) :
    decodeQuantum (b64Char (a.val / 4)) (b64Char (a.val % 4 * 16 + b.val / 16))
      (b64Char (b.val % 16 * 4)) '=' true = some [a, b] := by
  have ha := a.isLt
  have hb := b.isLt
  have h0 := b64Value_b64Char (a.val / 4) (by omega)
  have h1 := b64Value_b64Char (a.val % 4 * 16 + b.val / 16) (by omega)
  have h2 := b64Value_b64Char (b.val % 16 * 4) (by omega)
  have hp := b64Char_ne_pad (b.val % 16 * 4) (by omega)
  simp only [decodeQuantum, h0, h1, h2, hp, if_true, if_false, Bool.not_true]
  rw [toByte_val a _ (by omega), toByte_val b _ (by omega)]
  simp

theorem decodeQuantum_one (a : Byte) :
    decodeQuantum (b64Char (a.val / 4)) (b64Char (a.val % 4 * 16)) '=' '=' true = some [a] := by
  have ha := a.isLt
  have h0 := b64Value_b64Char (a.val / 4) (by omega)
  have h1 := b64Value_b64Char (a.val % 4 * 16) (by omega)
  simp only [decodeQuantum, h0, h1, if_true, Bool.not_true]
  rw [toByte_val a _ (by omega)]
  simp

theorem decodeChars_encodeBytes (bytes : List Byte) :
    decodeChars (encodeBytes bytes) = some bytes := by
  induction bytes using encodeBytes.induct with
  | case1 => rfl
  | case2 a => simp [encodeBytes, decodeChars, decodeQuantum_one]
  | case3 a b => simp [encodeBytes, decodeChars, decodeQuantum_two]
  | case4 a b c rest ih => simp [encodeBytes, decodeChars, decodeQuantum_three, ih]

theorem encodeBytes_chars (bytes : List Byte) :
    ∀ ch ∈ encodeBytes bytes, ch = '=' ∨ ∃ i, i < 64 ∧ ch = b64Char i := by
  induction bytes using encodeBytes.induct with
  | case1 => simp [encodeBytes]
  | case2 a =>
    have ha := a.isLt
    intro ch hch
    simp only [encodeBytes, List.mem_cons, List.mem_singleton, List.not_mem_nil, or_false] at hch
    rcases hch with h | h | h | h
    · exact Or.inr ⟨_, by omega, h⟩
    · exact Or.inr ⟨_, by omega, h⟩
    · exact Or.inl h
    · exact Or.inl h
  | case3 a b =>
    have ha := a.isLt
    have hb := b.isLt
    intro ch hch
    simp only [encodeBytes, List.mem_cons, List.mem_singleton, List.not_mem_nil, or_false] at hch
    rcases hch with h | h | h | h
    · exact Or.inr ⟨_, by omega, h⟩
    · exact Or.inr ⟨_, by omega, h⟩
    · exact Or.inr ⟨_, by omega, h⟩
    · exact Or.inl h
  | case4 a b c rest ih =>
    have ha := a.isLt
    have hb := b.isLt
    have hc := c.isLt
    intro ch hch
    simp only [encodeBytes, List.mem_cons] at hch
    rcases hch with h | h | h | h | h
    · exact Or.inr ⟨_, by omega, h⟩
    · exact Or.inr ⟨_, by omega, h⟩
    · exact Or.inr ⟨_, by omega, h⟩
    · exact Or.inr ⟨_, by omega, h⟩
    · exact ih ch h

theorem DecodeString_EncodeToString (bytes : List Byte) :
    DecodeString (EncodeToString bytes) = some bytes := by
  have hf : (encodeBytes bytes).filter (fun c => c != '\r' && c != '\n') = encodeBytes bytes := by
    apply List.filter_eq_self.2
    intro ch hch
    rcases encodeBytes_chars bytes ch hch with h | ⟨i, hi, h⟩
    · subst h; decide
    · have := b64Char_ne_break i hi
      subst h
      simp [this.1, this.2]
  simp only [DecodeString, EncodeToString, hf]
  exact decodeChars_encodeBytes bytes

/-! ### Splitting a payload -/

theorem utf8_append (x y : List Char) : utf8 (x ++ y) = utf8 x ++ utf8 y := by
  induction x with
  | nil => rfl
  | cons c x ih => simp [utf8, ih, List.append_assoc]

theorem bytesOf_append (x y : String) : bytesOf (x ++ y) = bytesOf x ++ bytesOf y := by
  simp [bytesOf, String.data_append, utf8_append]

theorem bytesOf_FILE : bytesOf "FILE" = [70, 73, 76, 69] := by
  decide

theorem indexOfSub_nil (s : List Byte) : indexOfSub s [] = some 0 := by
  cases s <;> simp [indexOfSub]

theorem indexOfSub_nil_left (sep : List Byte) (hs : sep ≠ []) : indexOfSub [] sep = none := by
  simp [indexOfSub, hs]

theorem indexOfSub_at_start (s sep : List Byte) (hs : sep ≠ []) (h : sep <+: s) :
    indexOfSub s sep = some 0 := by
  cases s with
  | nil => exact absurd (List.prefix_nil.1 h) hs
  | cons c s =>
    have : sep.isPrefixOf (c :: s) = true := List.isPrefixOf_iff_prefix.2 h
    simp [indexOfSub, this]

theorem indexOfSub_append (a sep rest : List Byte) (hs : sep ≠ [])
    (h : indexOfSub (a ++ sep) sep = some a.length) :
    indexOfSub (a ++ sep ++ rest) sep = some a.length := by
  induction a with
  | nil =>
    simp only [List.nil_append, List.length_nil]
    exact indexOfSub_at_start _ _ hs (List.prefix_append _ _)
  | cons c a ih =>
    simp only [List.cons_append, List.length_cons] at h ⊢
    unfold indexOfSub at h ⊢
    by_cases hp : sep.isPrefixOf (c :: (a ++ sep)) = true
    · simp [hp] at h
    · simp only [hp, Bool.false_eq_true, if_false] at h
      have hq : ¬ sep.isPrefixOf (c :: (a ++ sep ++ rest)) = true := by
        intro hq
        apply hp
        have h1 : sep <+: c :: (a ++ sep ++ rest) := List.isPrefixOf_iff_prefix.1 hq
        have h2 : c :: (a ++ sep) <+: c :: (a ++ sep ++ rest) := by
          rw [← List.cons_append]
          exact List.prefix_append _ _
        have h3 : sep.length ≤ (c :: (a ++ sep)).length := by
          simp only [List.length_cons, List.length_append]
          omega
        exact List.isPrefixOf_iff_prefix.2 (List.prefix_of_prefix_length_le h1 h2 h3)
      simp only [hq, Bool.false_eq_true, if_false]
      have h4 : indexOfSub (a ++ sep) sep = some a.length := by
        cases hx : indexOfSub (a ++ sep) sep with
        | none => simp [hx] at h
        | some m =>
          simp only [hx, Option.map_some', Option.some.injEq] at h
          have : m = a.length := by omega
          rw [this]
      rw [ih h4]
      rfl

theorem indexOfSub_bound (s sep : List Byte) (m : Nat) (h : indexOfSub s sep = some m) :
    m ≤ s.length := by
  induction s generalizing m with
  | nil =>
    unfold indexOfSub at h
    split at h
    · simp only [Option.some.injEq] at h
      omega
    · simp at h
  | cons c s ih =>
    unfold indexOfSub at h
    split at h
    · simp only [Option.some.injEq] at h
      omega
    · cases hx : indexOfSub s sep with
      | none => simp [hx] at h
      | some k =>
        simp only [hx, Option.map_some', Option.some.injEq] at h
        have := ih k hx
        simp only [List.length_cons]
        omega

theorem indexOfSub_take (s sep : List Byte) (m : Nat) (hs : sep ≠ [])
    (h : indexOfSub s sep = some m) : indexOfSub (s.take m) sep = none := by
  induction s generalizing m with
  | nil => simp [indexOfSub_nil_left sep hs]
  | cons c s ih =>
    unfold indexOfSub at h
    by_cases hp : sep.isPrefixOf (c :: s) = true
    · simp only [hp, if_true, Option.some.injEq] at h
      rw [← h]
      simp [indexOfSub_nil_left sep hs]
    · simp only [hp, Bool.false_eq_true, if_false] at h
      cases hx : indexOfSub s sep with
      | none => simp [hx] at h
      | some k =>
        simp only [hx, Option.map_some', Option.some.injEq] at h
        rw [← h, List.take_succ_cons]
        have hq : ¬ sep.isPrefixOf (c :: s.take k) = true := by
          intro hq
          apply hp
          have h1 : sep <+: c :: s.take k := List.isPrefixOf_iff_prefix.1 hq
          have h2 : c :: s.take k <+: c :: s :=
            (List.prefix_cons_inj c).2 (List.take_prefix k s)
          exact List.isPrefixOf_iff_prefix.2 (h1.trans h2)
        unfold indexOfSub
        simp only [hq, Bool.false_eq_true, if_false, ih k hx, Option.map_none']

theorem genSplit_cut (sep s : List Byte) (fuel m : Nat) (h : indexOfSub s sep = some m) :
    genSplit sep (fuel + 1) s = s.take m :: genSplit sep fuel (s.drop (m + sep.length)) := by
  simp [genSplit, h]

theorem genSplit_last (sep s : List Byte) (fuel : Nat) (h : indexOfSub s sep = none) :
    genSplit sep fuel s = [s] := by
  cases fuel <;> simp [genSplit, h]

theorem genSplit_three (sep f1 f2 f3 : List Byte) (fuel : Nat) (hs : sep ≠ [])
    (h1 : indexOfSub (f1 ++ sep) sep = some f1.length)
    (h2 : indexOfSub (f2 ++ sep) sep = some f2.length)
    (h3 : indexOfSub f3 sep = none) :
    genSplit sep (fuel + 2) (f1 ++ sep ++ f2 ++ sep ++ f3) = [f1, f2, f3] := by
  have e1 : f1 ++ sep ++ f2 ++ sep ++ f3 = f1 ++ sep ++ (f2 ++ sep ++ f3) := by
    simp [List.append_assoc]
  rw [e1, genSplit_cut sep _ (fuel + 1) f1.length (indexOfSub_append f1 sep _ hs h1)]
  have t1 : (f1 ++ sep ++ (f2 ++ sep ++ f3)).take f1.length = f1 := by
    simp [List.append_assoc]
  have d1 : (f1 ++ sep ++ (f2 ++ sep ++ f3)).drop (f1.length + sep.length) = f2 ++ sep ++ f3 := by
    rw [← List.length_append]
    exact List.drop_left _ _
  rw [t1, d1, genSplit_cut sep _ fuel f2.length (indexOfSub_append f2 sep _ hs h2)]
  have t2 : (f2 ++ sep ++ f3).take f2.length = f2 := by
    simp [List.append_assoc]
  have d2 : (f2 ++ sep ++ f3).drop (f2.length + sep.length) = f3 := by
    rw [← List.length_append]
    exact List.drop_left _ _
  rw [t2, d2, genSplit_last sep f3 fuel h3]

/-- No field that `genSplit` returns contains the separator, when the fuel is at least the
length of the string. -/
theorem genSplit_fields_free (sep : List Byte) (hs : sep ≠ []) (fuel : Nat) (s : List Byte)
    (hf : s.length ≤ fuel) : ∀ f ∈ genSplit sep fuel s, indexOfSub f sep = none := by
  induction fuel generalizing s with
  | zero =>
    have hnil : s = [] := List.length_eq_zero.1 (Nat.le_zero.1 hf)
    intro f hmem
    simp only [genSplit, List.mem_singleton] at hmem
    rw [hmem, hnil]
    exact indexOfSub_nil_left sep hs
  | succ fuel ih =>
    intro f hmem
    cases hi : indexOfSub s sep with
    | none =>
      rw [genSplit_last _ _ _ hi, List.mem_singleton] at hmem
      rw [hmem]
      exact hi
    | some m =>
      rw [genSplit_cut _ _ _ _ hi, List.mem_cons] at hmem
      rcases hmem with hmem | hmem
      · rw [hmem]
        exact indexOfSub_take s sep m hs hi
      · have hpos : 0 < sep.length := List.length_pos.2 hs
        have hlen : (s.drop (m + sep.length)).length ≤ fuel := by
          rw [List.length_drop]
          omega
        exact ih _ hlen f hmem

theorem fileData_payload_bytes (OpSep rpath : String) (bytes : List Byte) (a : SystemInfoPtr) :
    bytesOf (PutFile_fileData OpSep rpath bytes a).Payload =
      bytesOf "FILE" ++ bytesOf OpSep ++ bytesOf rpath ++ bytesOf OpSep ++
        bytesOf (EncodeToString bytes) := by
  simp only [PutFile_fileData, bytesOf_append]

theorem PutFile_reaches_send (OpSep : String) (fs : String → Option (List Byte))
    (lpath rpath : String) (a : SystemInfoPtr) (encodeOk : Bool) (s : State)
    (bytes : List Byte) (ctrl : Control) (hf : fs lpath = some bytes)
    (hsize : ¬ sizemB bytes.length > 20) (hreg : mapGet s.Targets a = some ctrl) :
    PutFile OpSep fs lpath rpath a encodeOk s =
      Send2Agent (PutFile_fileData OpSep rpath bytes a) a encodeOk s := by
  simp only [PutFile, hf, hreg, if_neg hsize]

theorem Split_three_fields (OpSep rpath : String) (bytes : List Byte) (a : SystemInfoPtr)
    (h1 : Index ("FILE" ++ OpSep) OpSep = some 4)
    (h2 : Index (rpath ++ OpSep) OpSep = some (len rpath))
    (h3 : Index (EncodeToString bytes) OpSep = none) :
    Split (PutFile_fileData OpSep rpath bytes a).Payload OpSep =
      [bytesOf "FILE", bytesOf rpath, bytesOf (EncodeToString bytes)] := by
  have hs : bytesOf OpSep ≠ [] := by
    intro h
    simp only [Index, h, indexOfSub_nil] at h3
    exact absurd h3 (by simp)
  simp only [Index, bytesOf_append, len] at h1 h2 h3
  have h1a : indexOfSub (bytesOf "FILE" ++ bytesOf OpSep) (bytesOf OpSep) =
      some (bytesOf "FILE").length := by
    rw [h1, bytesOf_FILE]
    rfl
  have hpos : 0 < (bytesOf OpSep).length := List.length_pos.2 hs
  have hlen : ∃ k, (bytesOf (PutFile_fileData OpSep rpath bytes a).Payload).length = k + 2 := by
    refine ⟨(bytesOf (PutFile_fileData OpSep rpath bytes a).Payload).length - 2, ?_⟩
    rw [fileData_payload_bytes]
    simp only [List.length_append]
    omega
  obtain ⟨k, hk⟩ := hlen
  unfold Split
  rw [if_neg hs, hk, fileData_payload_bytes]
  exact genSplit_three (bytesOf OpSep) _ _ _ k hs h1a h2 h3

theorem Split_path_contains_sep (OpSep rpath : String) (bytes : List Byte) (a : SystemInfoPtr)
    (hc : Index rpath OpSep ≠ none) :
    Split (PutFile_fileData OpSep rpath bytes a).Payload OpSep ≠
      [bytesOf "FILE", bytesOf rpath, bytesOf (EncodeToString bytes)] := by
  intro h
  by_cases hs : bytesOf OpSep = []
  · have hd : (PutFile_fileData OpSep rpath bytes a).Payload.data =
        'F' :: ('I' :: 'L' :: 'E' :: (OpSep.data ++ rpath.data ++ OpSep.data ++
          (EncodeToString bytes).data)) := by
      simp [PutFile_fileData, String.data_append]
    unfold Split at h
    rw [if_pos hs, hd, List.map_cons] at h
    have hhead := (List.cons.inj h).1
    rw [bytesOf_FILE] at hhead
    revert hhead
    decide
  · unfold Split at h
    rw [if_neg hs] at h
    have hfree := genSplit_fields_free (bytesOf OpSep) hs _
      (bytesOf (PutFile_fileData OpSep rpath bytes a).Payload) (Nat.le_refl _)
      (bytesOf rpath) (by rw [h]; simp)
    exact hc hfree

/-- C6 (amended): for every separator `OpSep`, remote path, file content and identity,
the envelope `PutFile` builds (and hands to `Send2Agent`) has the identity's tag, and
decoding the base64 text of the file gives back the file bytes. If the first occurrence of
`OpSep` in `"FILE" + OpSep` and in `rpath + OpSep` is the appended one and `OpSep` does
not occur in the base64 text, splitting the payload on `OpSep` yields exactly the three
fields `FILE`, the remote path and the base64 text. If the remote path contains `OpSep`,
the split does not yield these three fields. -/
theorem PutFile_fileData_decodes (OpSep rpath : String) (bytes : List Byte)
    (a : SystemInfoPtr) :
    (∀ (fs : String → Option (List Byte)) (lpath : String) (encodeOk : Bool) (s : State)
        (ctrl : Control), fs lpath = some bytes → ¬ sizemB bytes.length > 20 →
        mapGet s.Targets a = some ctrl →
        PutFile OpSep fs lpath rpath a encodeOk s =
          Send2Agent (PutFile_fileData OpSep rpath bytes a) a encodeOk s) ∧
    (PutFile_fileData OpSep rpath bytes a).Tag = a.val.Tag ∧
    DecodeString (EncodeToString bytes) = some bytes ∧
    (Index ("FILE" ++ OpSep) OpSep = some 4 →
      Index (rpath ++ OpSep) OpSep = some (len rpath) →
      Index (EncodeToString bytes) OpSep = none →
      Split (PutFile_fileData OpSep rpath bytes a).Payload OpSep =
        [bytesOf "FILE", bytesOf rpath, bytesOf (EncodeToString bytes)]) ∧
    (Index rpath OpSep ≠ none →
      Split (PutFile_fileData OpSep rpath bytes a).Payload OpSep ≠
        [bytesOf "FILE", bytesOf rpath, bytesOf (EncodeToString bytes)]) :=
  ⟨fun fs lpath encodeOk s ctrl hf hsize hreg =>
      PutFile_reaches_send OpSep fs lpath rpath a encodeOk s bytes ctrl hf hsize hreg,
    rfl, DecodeString_EncodeToString bytes,
    fun h1 h2 h3 => Split_three_fields OpSep rpath bytes a h1 h2 h3,
    fun hc => Split_path_contains_sep OpSep rpath bytes a hc⟩

theorem Index_self (OpSep : String) : Index OpSep OpSep ≠ none := by
  unfold Index
  by_cases hs : bytesOf OpSep = []
  · rw [hs, indexOfSub_nil]
    simp
  · rw [indexOfSub_at_start _ _ hs (List.prefix_refl _)]
    simp

/-- C6, counterexample: whatever the separator `OpSep` is, for the remote path that is
`OpSep` itself (and an empty file) splitting the payload of the envelope on `OpSep` does
not yield the three fields `FILE`, the remote path and the base64 string. -/
theorem PutFile_fileData_path_with_separator :
    ¬ ∃ OpSep : String,
      Split (PutFile_fileData OpSep OpSep [] stranger).Payload OpSep =
        [bytesOf "FILE", bytesOf OpSep, bytesOf (EncodeToString [])] := by
  rintro ⟨OpSep, h⟩
  exact Split_path_contains_sep OpSep OpSep [] stranger (Index_self OpSep) h

/-! ### File transfer -/

theorem float32Shift_spec (n fuel e0 : Nat) :
    e0 ≤ float32Shift n fuel e0 ∧
    (float32Shift n fuel e0 = e0 ∨ 2 ^ (23 + float32Shift n fuel e0) ≤ n) ∧
    (n < 2 ^ (24 + float32Shift n fuel e0) ∨ float32Shift n fuel e0 = e0 + fuel) := by
  induction fuel generalizing e0 with
  | zero => simp [float32Shift]
  | succ fuel ih =>
    unfold float32Shift
    by_cases h : n < 2 ^ (24 + e0)
    · simp [h]
    · simp only [h, if_false]
      obtain ⟨h1, h2, h3⟩ := ih (e0 + 1)
      refine ⟨by omega, ?_, ?_⟩
      · right
        rcases h2 with h2 | h2
        · rw [h2]
          have : 23 + (e0 + 1) = 24 + e0 := by omega
          rw [this]
          omega
        · exact h2
      · rcases h3 with h3 | h3
        · exact Or.inl h3
        · right; omega

theorem roundToEven_ge (size e : Nat) : size / 2 ^ e * 2 ^ e ≤ roundToEven size e := by
  unfold roundToEven
  simp only
  split
  · exact Nat.mul_le_mul_right _ (Nat.le_succ _)
  · exact Nat.le_refl _

theorem sizemB_gt_iff (size : Nat) :
    sizemB size > 20 ↔ 20971520 < roundToEven size (float32Shift size 40 0) := by
  unfold sizemB float32
  rw [gt_iff_lt, lt_div_iff₀ (by norm_num), lt_div_iff₀ (by norm_num)]
  norm_num

theorem sizemB_gt_20_iff (size : Nat) : sizemB size > 20 ↔ 20971522 ≤ size := by
  rw [sizemB_gt_iff]
  by_cases h24 : size < 2 ^ 24
  · have he : float32Shift size 40 0 = 0 := by
      rw [float32Shift, if_pos h24]
    rw [he]
    simp only [roundToEven, pow_zero, Nat.div_one, Nat.mod_one, Bool.or_eq_true,
      Bool.and_eq_true, decide_eq_true_eq]
    norm_num at h24
    split_ifs with hup <;> omega
  · by_cases h25 : size < 2 ^ 25
    · have he : float32Shift size 40 0 = 1 := by
        rw [float32Shift, if_neg h24, float32Shift, if_pos h25]
      rw [he]
      simp only [roundToEven, pow_one, Bool.or_eq_true, Bool.and_eq_true, decide_eq_true_eq]
      norm_num at h24 h25
      split_ifs with hup <;> omega
    · obtain ⟨_, h2, h3⟩ := float32Shift_spec size 40 0
      have hge : 2 ≤ float32Shift size 40 0 := by
        rcases h3 with h3 | h3
        · by_contra hlt
          have hle : float32Shift size 40 0 ≤ 1 := by omega
          have : 2 ^ (24 + float32Shift size 40 0) ≤ 2 ^ 25 :=
            Nat.pow_le_pow_right (by norm_num) (by omega)
          omega
        · omega
      have hpow : 2 ^ (23 + float32Shift size 40 0) ≤ size := by
        rcases h2 with h2 | h2
        · omega
        · exact h2
      have hq : 2 ^ 23 ≤ size / 2 ^ float32Shift size 40 0 := by
        rw [Nat.le_div_iff_mul_le (by positivity), ← pow_add]
        exact hpow
      have h4 : 2 ^ 2 ≤ 2 ^ float32Shift size 40 0 := Nat.pow_le_pow_right (by norm_num) hge
      have hv := roundToEven_ge size (float32Shift size 40 0)
      have hm : 2 ^ 23 * 2 ^ 2 ≤ size / 2 ^ float32Shift size 40 0 * 2 ^ float32Shift size 40 0 :=
        Nat.mul_le_mul hq h4
      norm_num at h24 h25 hm
      constructor
      · intro _; omega
      · intro _; omega

theorem PutFile_never_NotConnected (OpSep : String) (fs : String → Option (List Byte))
    (lpath rpath : String) (a : SystemInfoPtr) (encodeOk : Bool) (s : State) :
    (PutFile OpSep fs lpath rpath a encodeOk s).1 ≠ .NotConnected := by
  unfold PutFile
  cases hf : fs lpath with
  | none => simp
  | some bytes =>
    by_cases hsize : sizemB bytes.length > 20
    · simp [hsize]
    · simp only [if_neg hsize]
      cases hreg : mapGet s.Targets a with
      | none => simp
      | some ctrl =>
        simp only [Send2Agent, hreg]
        cases ctrl.Conn with
        | none => simp
        | some conn => cases encodeOk <;> simp

theorem PutFile_attached_sends (OpSep : String) (fs : String → Option (List Byte))
    (lpath rpath : String) (a : SystemInfoPtr) (s : State) (bytes : List Byte)
    (index : Int) (conn : Nat) (hf : fs lpath = some bytes)
    (hsize : ¬ sizemB bytes.length > 20)
    (hreg : mapGet s.Targets a = some ⟨index, some conn⟩) :
    (PutFile OpSep fs lpath rpath a true s).1 = Outcome.nil := by
  rw [PutFile_reaches_send OpSep fs lpath rpath a true s bytes ⟨index, some conn⟩ hf hsize hreg]
  simp only [Send2Agent, hreg, if_true]

/-- C6, witness: the separator `|` and the file `hi`, sent to the attached agent `b` with
the remote path `/tmp/é` (seven bytes), and the remote path `/tmp|x`, which contains the
separator. -/
theorem PutFile_fileData_decodes_witness :
    (smallFiles "hi.txt" = some [104, 105] ∧ ¬ sizemB ([104, 105] : List Byte).length > 20 ∧
      mapGet attached.Targets agentB = some ⟨1, some 7⟩) ∧
    PutFile "|" smallFiles "hi.txt" "/tmp/é" agentB true attached =
      Send2Agent (PutFile_fileData "|" "/tmp/é" [104, 105] agentB) agentB true attached ∧
    (Index ("FILE" ++ "|") "|" = some 4 ∧ Index ("/tmp/é" ++ "|") "|" = some (len "/tmp/é") ∧
      len "/tmp/é" = 7 ∧ Index (EncodeToString [104, 105]) "|" = none) ∧
    Split (PutFile_fileData "|" "/tmp/é" [104, 105] agentB).Payload "|" =
      [bytesOf "FILE", bytesOf "/tmp/é", bytesOf (EncodeToString [104, 105])] ∧
    Index "/tmp|x" "|" ≠ none ∧
    Split (PutFile_fileData "|" "/tmp|x" [104, 105] agentB).Payload "|" ≠
      [bytesOf "FILE", bytesOf "/tmp|x", bytesOf (EncodeToString [104, 105])] :=
  ⟨⟨rfl, by rw [sizemB_gt_20_iff]; decide, by decide⟩,
    (PutFile_fileData_decodes "|" "/tmp/é" [104, 105] agentB).1 smallFiles "hi.txt" true
      attached ⟨1, some 7⟩ rfl (by rw [sizemB_gt_20_iff]; decide) (by decide),
    by decide,
    (PutFile_fileData_decodes "|" "/tmp/é" [104, 105] agentB).2.2.2.1 (by decide) (by decide)
      (by decide),
    by decide,
    (PutFile_fileData_decodes "|" "/tmp|x" [104, 105] agentB).2.2.2.2 (by decide)⟩

/-- C4: a file of 20971521 bytes is longer than 20 MiB, but `float32(20971521)` is
20971520, so `sizemB` is exactly 20 and the test `sizemB > 20` does not reject it:
`PutFile` goes on and sends the file to the attached agent `b`. The test rejects exactly
the sizes from 20971522 bytes on. -/
theorem PutFile_accepts_20971521_bytes :
    20 * 1024 * 1024 < 20971521 ∧
    float32 20971521 = 20971520 ∧
    sizemB 20971521 = 20 ∧
    (PutFile "|" bigFiles "big.bin" "/tmp/big" agentB true attached).1 = Outcome.nil ∧
    ∀ size : Nat, sizemB size > 20 ↔ 20971522 ≤ size := by
  have hf : float32 20971521 = 20971520 := by simp [float32, float32Shift, roundToEven]
  have hs : sizemB 20971521 = 20 := by rw [sizemB, hf]; norm_num
  refine ⟨by decide, hf, hs, ?_, sizemB_gt_20_iff⟩
  have hreg : mapGet attached.Targets agentB = some ⟨1, some 7⟩ := by decide
  have hsize : ¬ sizemB (List.replicate 20971521 (0 : Byte)).length > 20 := by
    rw [List.length_replicate, hs]
    norm_num
  exact PutFile_attached_sends "|" bigFiles "big.bin" "/tmp/big" agentB attached
    (List.replicate 20971521 0) 1 7 rfl hsize hreg

/-- C5: for an identity without an entry in `Targets` and a readable two-byte file,
`PutFile` ends in the nil dereference of `Targets[a].Index` before `Send2Agent` is
called; and for no input at all does `PutFile` return the error "Target is not
connected". -/
theorem PutFile_unregistered_nil_dereference :
    mapGet State.init.Targets stranger = none ∧
    PutFile "|" smallFiles "hi.txt" "/tmp/hi" stranger true State.init =
      (.nilDereference, State.init) ∧
    ∀ (OpSep : String) (fs : String → Option (List Byte)) (lpath rpath : String)
      (a : SystemInfoPtr) (encodeOk : Bool) (s : State),
      (PutFile OpSep fs lpath rpath a encodeOk s).1 ≠ .NotConnected := by
  refine ⟨by decide, ?_, PutFile_never_NotConnected⟩
  have hsize : ¬ sizemB 2 > 20 := by rw [sizemB_gt_20_iff]; omega
  have hreg : mapGet State.init.Targets stranger = none := by decide
  simp only [PutFile, smallFiles, List.length_cons, List.length_nil, Nat.zero_add,
    Nat.reduceAdd, if_neg hsize, hreg]

/-! ### Shell cleanup -/

/-- C8: `cleanup` is idempotent, `cleanup (cleanup s) = cleanup s` for every state; and
from an active handle (`Conn`, `Ctx` and `Cancel` all set) one call fires cancel once,
restores the saved terminal settings once, closes the tty once, closes the connection
once and leaves the three fields of the handle nil. -/
theorem cleanup_idempotent (oldTerm : String) (s : ShellState) :
    cleanup oldTerm (cleanup oldTerm s) = cleanup oldTerm s ∧
    (s.H2Stream.Conn ≠ none → s.H2Stream.Ctx ≠ none → s.H2Stream.Cancel ≠ none →
      cleanup oldTerm s =
        { H2Stream := { Conn := none, Ctx := none, Cancel := none }
          cancelCalls := s.cancelCalls + 1
          termRestores := s.termRestores ++ [oldTerm]
          ttyCloses := s.ttyCloses + 1
          connCloses := s.connCloses + 1
          termClears := s.termClears + 1 }) := by
  constructor
  · by_cases h : s.H2Stream.Conn = none ∨ s.H2Stream.Ctx = none ∨ s.H2Stream.Cancel = none
    · simp [cleanup, h]
    · simp [cleanup, h]
  · intro h1 h2 h3
    simp [cleanup, h1, h2, h3]

/-- C8, witness: cleaning up the active session `activeShell`. -/
theorem cleanup_idempotent_witness :
    (activeShell.H2Stream.Conn ≠ none ∧ activeShell.H2Stream.Ctx ≠ none ∧
      activeShell.H2Stream.Cancel ≠ none) ∧
    cleanup "sane" activeShell =
      { H2Stream := { Conn := none, Ctx := none, Cancel := none }
        cancelCalls := 1, termRestores := ["sane"], ttyCloses := 1, connCloses := 1
        termClears := 1 } ∧
    cleanup "sane" (cleanup "sane" activeShell) = cleanup "sane" activeShell :=
  ⟨by decide,
    (cleanup_idempotent "sane" activeShell).2 (by decide) (by decide) (by decide),
    (cleanup_idempotent "sane" activeShell).1⟩

/-! ### Outbound pump -/

theorem outboundPump_written (chunks : List Outgoing) (p : Pump) :
    ∃ more, (outboundPump chunks p).written = p.written ++ more ∧
      List.Sublist (more.map (fun w => w.2)) (chunks.map (fun o => o.chunk)) := by
  induction chunks generalizing p with
  | nil => exact ⟨[], by simp [outboundPump], by simp⟩
  | cons o rest ih =>
    unfold outboundPump
    by_cases hd : o.done = true
    · exact ⟨[], by simp [hd, outboundPump_deferred], by simp⟩
    · simp only [hd, Bool.false_eq_true, if_false]
      cases hc : o.Conn with
      | none =>
        obtain ⟨more, h1, h2⟩ := ih p
        exact ⟨more, h1, by simpa using List.Sublist.cons _ h2⟩
      | some conn =>
        by_cases hw : o.writeOk = true
        · simp only [hw, if_true]
          obtain ⟨more, h1, h2⟩ := ih { p with written := p.written ++ [(conn, o.chunk)] }
          refine ⟨(conn, o.chunk) :: more, by simpa using h1, ?_⟩
          simpa using h2
        · exact ⟨[], by simp [hw, outboundPump_deferred], by simp⟩

/-- C10: the pump forwards the chunk `ls\n` to connection 3 and observes cancellation
when it takes the next chunk: it returns, and its deferred function puts `exit\n\n` on the
channel `send`, which the pump itself was draining. The last (and only) write on the
remote connection is `ls\n`; `exit\n\n` is not written to the connection. -/
theorem outboundPump_exit_is_queued_not_written :
    outboundPump [⟨[108, 115, 10], false, some 3, true⟩, ⟨[105, 100, 10], true, some 3, true⟩]
        Pump.start =
      { written := [(3, [108, 115, 10])], queued := [exitSeq], running := false } := by
  decide

end Emp3r0r
